import Mathlib

/-!
# Ledgerly — verification of the transaction ledger core

Shallow embedding of the Ledgerly personal finance tracker.  The repository
ships one source file, `src/script.js`, holding the UI class `Ledgerly`
(form handling, rendering).  The data layer it calls
(`GitHubDataManager`: `loadMonthData`, `addTransaction`, `updateTransaction`,
`deleteTransaction`, `findTransaction`, `calculateMonthlySummary`,
`getAllTransactionsForMonth`, and the remote store client) is not part of the
sources; those operations are modelled from the specification, and each such
definition says so in its doc comment.  `handleFormSubmit` is embedded from
the source.

Amounts are modelled as rationals (`Rat`): the spec's "positive decimal"
amounts and their sums and differences are exact at this granularity.
Dates and descriptions are strings, as in the persisted JSON shape.
-/

namespace Ledgerly

/-- A single transaction, as in the persisted JSON shape:
`{ id, date, description, amount }`. -/
structure Transaction where
  id : String
  date : String
  description : String
  amount : Rat
  deriving DecidableEq, Repr

/-- The category of a transaction is carried by which list of the monthly
document it belongs to, never by the sign of its amount. -/
inductive Category where
  | income
  | expense
  deriving DecidableEq, Repr

/-- Monthly Ledger Document: `{ income, expenses }`, two ordered lists. -/
structure LedgerDoc where
  income : List Transaction
  expenses : List Transaction
  deriving DecidableEq, Repr

/-- The empty monthly document (both lists empty). -/
def emptyDoc : LedgerDoc := ⟨[], []⟩

/-- The list of the document named by a category. -/
def LedgerDoc.listOf (d : LedgerDoc) : Category → List Transaction
  | Category.income => d.income
  | Category.expense => d.expenses

/-- All transactions of a document, income first then expenses. -/
def allTx (d : LedgerDoc) : List Transaction := d.income ++ d.expenses

/-- The ids occurring in a document (both lists). -/
def usedIds (d : LedgerDoc) : List String := (allTx d).map (·.id)

/-- Document invariant: every transaction in either list has `amount > 0`. -/
def docInv (d : LedgerDoc) : Prop := ∀ t ∈ allTx d, 0 < t.amount

-- ==========================================
-- JSON serialization (persisted shape)
-- ==========================================

/-- A JSON value, as far as the persisted document shape needs:
strings, numbers, arrays and objects. -/
inductive Json where
  | str : String → Json
  | num : Rat → Json
  | arr : List Json → Json
  | obj : List (String × Json) → Json

/-- Serialize one transaction to its persisted JSON object. -/
def serializeTx (t : Transaction) : Json :=
  Json.obj [("id", Json.str t.id), ("date", Json.str t.date),
            ("description", Json.str t.description), ("amount", Json.num t.amount)]

/-- Parse one transaction from a JSON object with fields
`id`, `date`, `description` (strings) and `amount` (number). -/
def parseTx (j : Json) : Option Transaction :=
  match j with
  | Json.obj fs =>
    match fs.lookup "id", fs.lookup "date", fs.lookup "description", fs.lookup "amount" with
    | some (Json.str i), some (Json.str dt), some (Json.str ds), some (Json.num a) =>
      some ⟨i, dt, ds, a⟩
    | _, _, _, _ => none
  | _ => none

/-- Parse every element of a JSON array as a transaction; fail if any fails. -/
def parseTxList : List Json → Option (List Transaction)
  | [] => some []
  | j :: js =>
    match parseTx j, parseTxList js with
    | some t, some ts => some (t :: ts)
    | _, _ => none

/-- Serialize a monthly document to the persisted JSON shape:
an object with `income` and `expenses` arrays. -/
def serializeDoc (d : LedgerDoc) : Json :=
  Json.obj [("income", Json.arr (d.income.map serializeTx)),
            ("expenses", Json.arr (d.expenses.map serializeTx))]

/-- Parse a monthly document from its persisted JSON shape. -/
def parseDoc (j : Json) : Option LedgerDoc :=
  match j with
  | Json.obj fs =>
    match fs.lookup "income", fs.lookup "expenses" with
    | some (Json.arr is), some (Json.arr es) =>
      match parseTxList is, parseTxList es with
      | some li, some le => some ⟨li, le⟩
      | _, _ => none
    | _, _ => none
  | _ => none

theorem parseTx_serializeTx (t : Transaction) : parseTx (serializeTx t) = some t := rfl

theorem parseTxList_map_serializeTx (ts : List Transaction) :
    parseTxList (ts.map serializeTx) = some ts := by
  induction ts with
  | nil => rfl
  | cons t ts ih => simp [parseTxList, parseTx_serializeTx, ih]

-- ==========================================
-- Errors, remote store and manager state
-- ==========================================

/-- The error kinds of the error-handling design. -/
inductive LErr where
  | authError
  | networkError
  | notFoundError
  | validationError
  | notLoadedError
  deriving DecidableEq, Repr

/-- A `(year, month)` key naming one monthly document. -/
abbrev MonthKey := String × String

/-- The remote store: serialized JSON documents keyed by `(year, month)`.
Writes prepend, so a lookup sees the most recent write (last write wins). -/
abbrev Remote := List (MonthKey × Json)

/-- Modelled from the spec: `saveDocument(year, month, document)` of the
Remote Store Client (absent from `src/`) — serializes the document and
overwrites whatever the path held, last write wins. -/
def saveDocument (k : MonthKey) (d : LedgerDoc) (r : Remote) : Remote :=
  (k, serializeDoc d) :: r

/-- Modelled from the spec: `fetchDocument(year, month)` of the Remote Store
Client (absent from `src/`) — returns the parsed document, or the empty
default when the path does not exist (`NotFoundError` is not surfaced).
Transport and credential failures have no counterpart in this pure model;
an unparseable stored blob (unspecified in the spec) maps to `networkError`. -/
def fetchDocument (k : MonthKey) (r : Remote) : Except LErr LedgerDoc :=
  match r.lookup k with
  | none => Except.ok emptyDoc
  | some j =>
    match parseDoc j with
    | some d => Except.ok d
    | none => Except.error LErr.networkError

/-- The Transaction Ledger Manager's state: the remote store it talks to,
the currently loaded month's key and document (`none` = nothing loaded yet),
and a counter feeding fresh id generation. -/
structure MState where
  remote : Remote
  current : Option (MonthKey × LedgerDoc)
  counter : Nat

/-- The document of the currently loaded month (empty when none is loaded). -/
def getDoc (s : MState) : LedgerDoc :=
  match s.current with
  | some (_, d) => d
  | none => emptyDoc

/-- The id generation scheme: an injective encoding of the manager's counter.
The spec leaves the scheme open ("timestamp- or random-based is sufficient");
any injective source of ids not yet in the document satisfies it. -/
def idOf (k : Nat) : String := String.mk ('t' :: List.replicate k 'x')

theorem idOf_injective : Function.Injective idOf := by
  intro a b h
  have hd : 't' :: List.replicate a 'x' = 't' :: List.replicate b 'x' :=
    congrArg String.data h
  have := congrArg List.length hd
  simpa using this

/-- Well-formed manager state: every id in the loaded document was produced
by `idOf` from a value below the counter (so the next generated id is fresh). -/
def WF (s : MState) : Prop :=
  ∀ t ∈ allTx (getDoc s), ∃ j, t.id = idOf j ∧ j < s.counter

-- ==========================================
-- Ledger Manager operations (modelled from the spec)
-- ==========================================

/-- Modelled from the spec: `loadMonthData(year, month)` of the Ledger
Manager (absent from `src/`) — fetches the document through the Remote Store
Client and replaces the in-memory state with it. -/
def loadMonthData (y m : String) (s : MState) : Except LErr MState :=
  match fetchDocument (y, m) s.remote with
  | Except.ok d => Except.ok { s with current := some ((y, m), d) }
  | Except.error e => Except.error e

/-- The fields a caller supplies to add or update a transaction. -/
structure TxFields where
  date : String
  description : String
  amount : Rat
  deriving DecidableEq, Repr

/-- Well-formed `YYYY-MM-DD` date string: four digits, dash, two digits in
`01`–`12`, dash, two digits in `01`–`31`. -/
def validDate (s : String) : Bool :=
  match s.data with
  | [y1, y2, y3, y4, c1, m1, m2, c2, d1, d2] =>
    y1.isDigit && y2.isDigit && y3.isDigit && y4.isDigit &&
    c1 == '-' && c2 == '-' &&
    m1.isDigit && m2.isDigit && d1.isDigit && d2.isDigit &&
    (let mo := (m1.toNat - '0'.toNat) * 10 + (m2.toNat - '0'.toNat)
     let dy := (d1.toNat - '0'.toNat) * 10 + (d2.toNat - '0'.toNat)
     1 ≤ mo && mo ≤ 12 && 1 ≤ dy && dy ≤ 31)
  | _ => false

/-- Modelled from the spec: the validation `addTransaction` performs —
`amount > 0`, `description` non-empty, `date` well-formed. -/
def validFields (f : TxFields) : Bool :=
  decide (0 < f.amount) && !f.description.isEmpty && validDate f.date

/-- Append a transaction at the end of the list named by the category. -/
def addToDoc (d : LedgerDoc) (c : Category) (t : Transaction) : LedgerDoc :=
  match c with
  | Category.income => { d with income := d.income ++ [t] }
  | Category.expense => { d with expenses := d.expenses ++ [t] }

/-- Modelled from the spec: `addTransaction(fields, category)` of the Ledger
Manager (absent from `src/`) — validates, rejecting with `ValidationError`
before any remote call; requires a loaded month; generates a fresh id;
appends to the list named by the category; persists; returns the created
transaction. -/
def addTransaction (f : TxFields) (c : Category) (s : MState) :
    Except LErr (MState × Transaction) :=
  if validFields f then
    match s.current with
    | none => Except.error LErr.notLoadedError
    | some (k, d) =>
      let t : Transaction := ⟨idOf s.counter, f.date, f.description, f.amount⟩
      let d2 := addToDoc d c t
      Except.ok ({ remote := saveDocument k d2 s.remote,
                   current := some (k, d2),
                   counter := s.counter + 1 }, t)
  else Except.error LErr.validationError

/-- Replace the date, description and amount of the transaction carrying the
given id; leave every other transaction, and the matched one's id, alone. -/
def patchTx (i : String) (f : TxFields) (t : Transaction) : Transaction :=
  if t.id = i then ⟨t.id, f.date, f.description, f.amount⟩ else t

/-- Modelled from the spec: `updateTransaction(id, fields)` of the Ledger
Manager (absent from `src/`) — locates the transaction by id across both
lists, fails with `NotFoundError` if absent, replaces only date, description
and amount in place (category and list position unchanged), persists. -/
def updateTransaction (i : String) (f : TxFields) (s : MState) : Except LErr MState :=
  match s.current with
  | none => Except.error LErr.notLoadedError
  | some (k, d) =>
    if i ∈ usedIds d then
      let d2 : LedgerDoc := ⟨d.income.map (patchTx i f), d.expenses.map (patchTx i f)⟩
      Except.ok { s with remote := saveDocument k d2 s.remote, current := some (k, d2) }
    else Except.error LErr.notFoundError

/-- Modelled from the spec: `deleteTransaction(id)` of the Ledger Manager
(absent from `src/`) — locates and removes by id across both lists, fails
with `NotFoundError` if absent, persists the document with the entry
removed. -/
def deleteTransaction (i : String) (s : MState) : Except LErr MState :=
  match s.current with
  | none => Except.error LErr.notLoadedError
  | some (k, d) =>
    if i ∈ usedIds d then
      let d2 : LedgerDoc := ⟨d.income.filter (fun t => t.id ≠ i),
                             d.expenses.filter (fun t => t.id ≠ i)⟩
      Except.ok { s with remote := saveDocument k d2 s.remote, current := some (k, d2) }
    else Except.error LErr.notFoundError

/-- What `findTransaction` returns on success: the transaction paired with
its category. -/
structure Found where
  transaction : Transaction
  category : Category
  deriving DecidableEq, Repr

/-- Modelled from the spec: `findTransaction(id)` of the Ledger Manager
(absent from `src/`) — a pure read returning `{ transaction, category }`,
or `none` (the "not found" sentinel); it takes no state and returns no
state, so it has no persistence side effect by construction. -/
def findTransaction (d : LedgerDoc) (i : String) : Option Found :=
  match d.income.find? (fun t => t.id == i) with
  | some t => some ⟨t, Category.income⟩
  | none =>
    match d.expenses.find? (fun t => t.id == i) with
    | some t => some ⟨t, Category.expense⟩
    | none => none

/-- `findTransaction` at the manager level: reads the loaded document. -/
def findTransactionS (s : MState) (i : String) : Option Found :=
  findTransaction (getDoc s) i

/-- Monthly Summary, derived on demand, never persisted. -/
structure Summary where
  totalIncome : Rat
  totalExpenses : Rat
  balance : Rat
  deriving DecidableEq, Repr

/-- The sum of the amounts of a list of transactions, in insertion order. -/
def sumAmounts (ts : List Transaction) : Rat := (ts.map (·.amount)).sum

/-- Modelled from the spec: `calculateMonthlySummary` of the Ledger Manager
(absent from `src/`) — linear summation over both lists of the loaded
document; the balance is computed as the difference of the two totals. -/
def calculateMonthlySummary (d : LedgerDoc) : Summary :=
  { totalIncome := sumAmounts d.income,
    totalExpenses := sumAmounts d.expenses,
    balance := sumAmounts d.income - sumAmounts d.expenses }

-- ==========================================
-- Display merge: getAllTransactionsForMonth
-- ==========================================

/-- Both lists' transactions, each tagged with its category, income list
first — the insertion order of the merged sequence. -/
def tagged (d : LedgerDoc) : List (Transaction × Category) :=
  d.income.map (fun t => (t, Category.income)) ++
    d.expenses.map (fun t => (t, Category.expense))

/-- Date order on tagged transactions (lexicographic string order on the
`YYYY-MM-DD` dates coincides with chronological order). -/
def dateLe (a b : Transaction × Category) : Prop := a.1.date ≤ b.1.date

instance : DecidableRel dateLe :=
  fun a b => (inferInstance : Decidable (a.1.date ≤ b.1.date))

instance : IsTotal (Transaction × Category) dateLe :=
  ⟨fun a b => le_total a.1.date b.1.date⟩

instance : IsTrans (Transaction × Category) dateLe :=
  ⟨fun _ _ _ hab hbc => le_trans hab hbc⟩

/-- Modelled from the spec: `getAllTransactionsForMonth` of the Ledger
Manager (absent from `src/`) — one sequence merging both lists, each entry
tagged with its category, ordered by date ascending with insertion order as
the tie-break (a stable sort of the merged sequence). -/
def getAllTransactionsForMonth (d : LedgerDoc) : List (Transaction × Category) :=
  List.insertionSort dateLe (tagged d)

-- ==========================================
-- Run wrappers and operation traces
-- ==========================================

/-- Run `loadMonthData`, keeping the old state when it fails. -/
def runLoad (s : MState) (y m : String) : MState :=
  match loadMonthData y m s with
  | Except.ok s2 => s2
  | Except.error _ => s

/-- Run `addTransaction`, keeping the old state when it fails. -/
def runAdd (s : MState) (f : TxFields) (c : Category) : MState :=
  match addTransaction f c s with
  | Except.ok (s2, _) => s2
  | Except.error _ => s

/-- Run `updateTransaction`, keeping the old state when it fails. -/
def runUpdate (s : MState) (i : String) (f : TxFields) : MState :=
  match updateTransaction i f s with
  | Except.ok s2 => s2
  | Except.error _ => s

/-- Run `deleteTransaction`, keeping the old state when it fails. -/
def runDelete (s : MState) (i : String) : MState :=
  match deleteTransaction i s with
  | Except.ok s2 => s2
  | Except.error _ => s

/-- One mutating ledger operation, for reasoning about sequences of them. -/
inductive Op where
  | addOp : TxFields → Category → Op
  | updateOp : String → TxFields → Op
  | deleteOp : String → Op

/-- Apply one operation (failed operations leave the state unchanged). -/
def applyOp (s : MState) : Op → MState
  | Op.addOp f c => runAdd s f c
  | Op.updateOp i f => runUpdate s i f
  | Op.deleteOp i => runDelete s i

/-- Apply a sequence of operations left to right. -/
def applyOps (s : MState) : List Op → MState
  | [] => s
  | o :: os => applyOps (applyOp s o) os

/-- Whether an operation explicitly updates or deletes the given id. -/
def opTargets (o : Op) (i : String) : Prop :=
  match o with
  | Op.addOp _ _ => False
  | Op.updateOp j _ => j = i
  | Op.deleteOp j => j = i

-- ==========================================
-- handleFormSubmit (embedded from src/script.js)
-- ==========================================

/-- `String.prototype.trim`: strip whitespace from both ends
(`description.trim()` in `handleFormSubmit`). -/
def jsTrim (s : String) : String :=
  String.mk (((s.data.dropWhile Char.isWhitespace).reverse.dropWhile
    Char.isWhitespace).reverse)

/-- `!amount` on the result of `parseFloat`: true for `NaN` (modelled as
`none`) and for `0`. -/
def jsFalsyNum : Option Rat → Bool
  | none => true
  | some a => a == 0

/-- `amount <= 0` on the result of `parseFloat`: false for `NaN`
(comparisons with `NaN` are false in JavaScript). -/
def jsLeZero : Option Rat → Bool
  | none => false
  | some a => decide (a ≤ 0)

/-- Embedded from `src/script.js` lines 166–205 (`Ledgerly.handleFormSubmit`):
reads the form fields (the description is trimmed, the amount parsed by
`parseFloat`, modelled as `Option Rat` with `none` for `NaN`), rejects via
the guard `!date || !description || !amount || amount <= 0`, and otherwise
invokes `updateTransaction` (when an edit is in progress) or
`addTransaction` on the data manager.  Returns the resulting manager state
and whether a data-manager mutator was invoked. -/
def handleFormSubmit (editingId : Option String) (date : String) (ty : Category)
    (rawDesc : String) (amount : Option Rat) (s : MState) : MState × Bool :=
  let description := jsTrim rawDesc
  if date.isEmpty || description.isEmpty || jsFalsyNum amount || jsLeZero amount then
    (s, false)
  else
    match amount with
    | none => (s, false)
    | some a =>
      match editingId with
      | some i => (runUpdate s i ⟨date, description, a⟩, true)
      | none => (runAdd s ⟨date, description, a⟩ ty, true)

-- ==========================================
-- Concrete scenario states
-- ==========================================

/-- A fresh manager over an empty remote store, nothing loaded. -/
def scState0 : MState := ⟨[], none, 0⟩

/-- The spec's scenario income fields. -/
def scSalary : TxFields := ⟨"2024-01-05", "Salary", 50000⟩

/-- The spec's scenario expense fields. -/
def scRent : TxFields := ⟨"2024-01-10", "Rent", 15000⟩

/-- After loading January 2024 (no remote document exists). -/
def scState1 : MState := runLoad scState0 "2024" "01"

/-- After adding the salary income. -/
def scState2 : MState := runAdd scState1 scSalary Category.income

/-- After adding the rent expense. -/
def scState3 : MState := runAdd scState2 scRent Category.expense

/-- A concrete month key used to exercise the theorems. -/
def wKey : MonthKey := ("2024", "01")

/-- A concrete transaction used to exercise the theorems. -/
def wTx : Transaction := ⟨idOf 0, "2024-01-05", "Salary", 50000⟩

/-- A concrete one-transaction document used to exercise the theorems. -/
def wDoc : LedgerDoc := ⟨[wTx], []⟩

/-- A concrete loaded manager state used to exercise the theorems. -/
def wState : MState := ⟨[], some (wKey, wDoc), 1⟩

/-- Concrete valid fields used to exercise the theorems. -/
def wFields : TxFields := ⟨"2024-02-01", "Bonus", 700⟩

-- ==========================================
-- Helper lemmas
-- ==========================================

theorem not_mem_usedIds_iff {d : LedgerDoc} {i : String} :
    i ∉ usedIds d ↔ ∀ t ∈ allTx d, t.id ≠ i := by
  simp [usedIds]

theorem mem_usedIds_of_id {d : LedgerDoc} {t : Transaction} (ht : t ∈ allTx d) :
    t.id ∈ usedIds d :=
  List.mem_map.mpr ⟨t, ht, rfl⟩

theorem findTransaction_eq_none {d : LedgerDoc} {i : String} (h : i ∉ usedIds d) :
    findTransaction d i = none := by
  have hall := not_mem_usedIds_iff.mp h
  have hin : d.income.find? (fun t => t.id == i) = none :=
    List.find?_eq_none.mpr fun t ht => by
      simpa using hall t (List.mem_append_left _ ht)
  have hex : d.expenses.find? (fun t => t.id == i) = none :=
    List.find?_eq_none.mpr fun t ht => by
      simpa using hall t (List.mem_append_right _ ht)
  simp only [findTransaction, hin, hex]

theorem findTransaction_some {d : LedgerDoc} {i : String} {fnd : Found}
    (h : findTransaction d i = some fnd) :
    fnd.transaction.id = i ∧
      ((fnd.category = Category.income ∧ fnd.transaction ∈ d.income) ∨
       (fnd.category = Category.expense ∧ fnd.transaction ∈ d.expenses)) := by
  unfold findTransaction at h
  rcases hin : d.income.find? (fun t => t.id == i) with _ | t
  · rw [hin] at h
    rcases hex : d.expenses.find? (fun t => t.id == i) with _ | t
    · rw [hex] at h; cases h
    · rw [hex] at h
      cases h
      refine ⟨by simpa using List.find?_some hex, Or.inr ⟨rfl, ?_⟩⟩
      exact List.mem_of_find?_eq_some hex
  · rw [hin] at h
    cases h
    refine ⟨by simpa using List.find?_some hin, Or.inl ⟨rfl, ?_⟩⟩
    exact List.mem_of_find?_eq_some hin

theorem findTransaction_none_iff {d : LedgerDoc} {i : String} :
    findTransaction d i = none ↔ i ∉ usedIds d := by
  constructor
  · intro h hmem
    rcases List.mem_map.mp hmem with ⟨t, ht, hid⟩
    rcases List.mem_append.mp ht with hti | hte
    · have : d.income.find? (fun t => t.id == i) = none := by
        unfold findTransaction at h
        rcases hfi : d.income.find? (fun t => t.id == i) with _ | u
        · exact hfi
        · rw [hfi] at h; cases h
      have := List.find?_eq_none.mp this t hti
      simp [hid] at this
    · unfold findTransaction at h
      rcases hfi : d.income.find? (fun t => t.id == i) with _ | u
      · rw [hfi] at h
        rcases hfe : d.expenses.find? (fun t => t.id == i) with _ | u
        · have := List.find?_eq_none.mp hfe t hte
          simp [hid] at this
        · rw [hfe] at h; cases h
      · rw [hfi] at h; cases h
  · exact findTransaction_eq_none

theorem mem_usedIds_of_find {d : LedgerDoc} {i : String} {fnd : Found}
    (h : findTransaction d i = some fnd) : i ∈ usedIds d := by
  rcases findTransaction_some h with ⟨hid, hmem⟩
  rcases hmem with ⟨_, hm⟩ | ⟨_, hm⟩
  · exact hid ▸ mem_usedIds_of_id (List.mem_append_left _ hm)
  · exact hid ▸ mem_usedIds_of_id (List.mem_append_right _ hm)

theorem getDoc_scState3 : getDoc scState3 =
    ⟨[⟨idOf 0, "2024-01-05", "Salary", 50000⟩],
     [⟨idOf 1, "2024-01-10", "Rent", 15000⟩]⟩ := rfl

-- ==========================================
-- Claim theorems
-- ==========================================

/-- C1: for every document (hence after every sequence of add/update/delete
operations), `calculateMonthlySummary` returns `totalIncome` equal to the sum
of the income amounts, `totalExpenses` equal to the sum of the expense
amounts, and `balance` exactly `totalIncome - totalExpenses`; and after
adding income (Salary, 50000) and expense (Rent, 15000) to an empty ledger,
the summary is `{totalIncome := 50000, totalExpenses := 15000,
balance := 35000}`. -/
theorem C1_summary_correct :
    (∀ d : LedgerDoc,
      (calculateMonthlySummary d).totalIncome = sumAmounts d.income ∧
      (calculateMonthlySummary d).totalExpenses = sumAmounts d.expenses ∧
      (calculateMonthlySummary d).balance =
        (calculateMonthlySummary d).totalIncome -
          (calculateMonthlySummary d).totalExpenses) ∧
    (∀ (ops : List Op) (s : MState),
      (calculateMonthlySummary (getDoc (applyOps s ops))).balance =
        (calculateMonthlySummary (getDoc (applyOps s ops))).totalIncome -
          (calculateMonthlySummary (getDoc (applyOps s ops))).totalExpenses) ∧
    calculateMonthlySummary (getDoc scState3) = ⟨50000, 15000, 35000⟩ := by
  refine ⟨fun d => ⟨rfl, rfl, rfl⟩, fun ops s => rfl, ?_⟩
  rw [getDoc_scState3]
  norm_num [calculateMonthlySummary, sumAmounts]

/-- C2: `findTransaction` is a pure read — it is a function of the document
that returns no document, so the in-memory document is unchanged by
construction — returning the "not found" sentinel `none` exactly when the id
occurs in neither list, and otherwise a `{ transaction, category }` pairing
whose transaction carries the looked-up id and lies in the list its category
names. -/
theorem C2_findTransaction_pure_read :
    ∀ (d : LedgerDoc) (i : String),
      findTransactionS ⟨[], some (wKey, d), 0⟩ i = findTransaction d i ∧
      (findTransaction d i = none ↔ i ∉ usedIds d) ∧
      (∀ fnd : Found, findTransaction d i = some fnd →
        fnd.transaction.id = i ∧
          ((fnd.category = Category.income ∧ fnd.transaction ∈ d.income) ∨
           (fnd.category = Category.expense ∧ fnd.transaction ∈ d.expenses))) :=
  fun _ _ => ⟨rfl, findTransaction_none_iff, fun _ h => findTransaction_some h⟩

/-- C2 witness: the spec of `findTransaction` evaluated on a concrete
document, both for a present id and for an absent one. -/
theorem C2_findTransaction_pure_read_witness :
    findTransaction wDoc (idOf 0) = some ⟨wTx, Category.income⟩ ∧
    wTx.id = idOf 0 ∧ wTx ∈ wDoc.income ∧
    findTransaction wDoc "absent" = none := by
  refine ⟨by decide, ?_, ?_, ?_⟩
  · exact ((C2_findTransaction_pure_read wDoc (idOf 0)).2.2 ⟨wTx, Category.income⟩
      (by decide)).1
  · have := ((C2_findTransaction_pure_read wDoc (idOf 0)).2.2 ⟨wTx, Category.income⟩
      (by decide)).2
    rcases this with ⟨_, hm⟩ | ⟨hc, _⟩
    · exact hm
    · cases hc
  · exact ((C2_findTransaction_pure_read wDoc "absent").2.1).mpr (by decide)

/-- C8: serializing a Monthly Ledger Document to the persisted JSON shape
(`{ income, expenses }` arrays of `{id, date, description, amount}` objects)
and parsing the result back yields the identical document — all fields and
the order within each list preserved. -/
theorem C8_roundTrip : ∀ d : LedgerDoc, parseDoc (serializeDoc d) = some d := by
  intro d
  show (match parseTxList (d.income.map serializeTx),
             parseTxList (d.expenses.map serializeTx) with
        | some li, some le => some (⟨li, le⟩ : LedgerDoc)
        | _, _ => none) = some d
  rw [parseTxList_map_serializeTx, parseTxList_map_serializeTx]

/-- C3: for an id present in either list, `updateTransaction` succeeds and
replaces only the date, description and amount of the matched transaction —
its id is kept, every position of both lists holds the same transaction as
before except that the matched one has the new fields, so list membership
(category) and position are unchanged; for an id absent from both lists it
fails with `NotFoundError`. -/
theorem C3_updateTransaction_spec :
    ∀ (s : MState) (k : MonthKey) (d : LedgerDoc) (i : String) (f : TxFields),
      s.current = some (k, d) →
      ((i ∈ usedIds d →
        ∃ s2, updateTransaction i f s = Except.ok s2 ∧
          ∃ d2, s2.current = some (k, d2) ∧
            (∀ n : Nat, d2.income[n]? = (d.income[n]?).map (patchTx i f)) ∧
            (∀ n : Nat, d2.expenses[n]? = (d.expenses[n]?).map (patchTx i f)) ∧
            (∀ t : Transaction, (patchTx i f t).id = t.id) ∧
            (∀ t : Transaction, t.id ≠ i → patchTx i f t = t) ∧
            (∀ t : Transaction, t.id = i →
              patchTx i f t = ⟨t.id, f.date, f.description, f.amount⟩)) ∧
       (i ∉ usedIds d → updateTransaction i f s = Except.error LErr.notFoundError)) := by
  intro s k d i f hcur
  constructor
  · intro hmem
    have hup : updateTransaction i f s = Except.ok
        { s with remote := saveDocument k ⟨d.income.map (patchTx i f),
                                           d.expenses.map (patchTx i f)⟩ s.remote,
                 current := some (k, ⟨d.income.map (patchTx i f),
                                      d.expenses.map (patchTx i f)⟩) } := by
      simp [updateTransaction, hcur, hmem]
    refine ⟨_, hup, ⟨d.income.map (patchTx i f), d.expenses.map (patchTx i f)⟩,
      rfl, ?_, ?_, ?_, ?_, ?_⟩
    · intro n; exact List.getElem?_map ..
    · intro n; exact List.getElem?_map ..
    · intro t; unfold patchTx; split <;> rfl
    · intro t ht; simp [patchTx, ht]
    · intro t ht; simp [patchTx, ht]
  · intro hmem
    simp [updateTransaction, hcur, hmem]

/-- C3 witness: on a concrete loaded state, updating a present id succeeds
and updating an absent id fails with `NotFoundError`. -/
theorem C3_updateTransaction_spec_witness :
    wState.current = some (wKey, wDoc) ∧ idOf 0 ∈ usedIds wDoc ∧
    "absent" ∉ usedIds wDoc ∧
    updateTransaction "absent" wFields wState = Except.error LErr.notFoundError ∧
    ∃ s2, updateTransaction (idOf 0) wFields wState = Except.ok s2 := by
  refine ⟨rfl, by decide, by decide,
    (C3_updateTransaction_spec wState wKey wDoc "absent" wFields rfl).2 (by decide), ?_⟩
  obtain ⟨s2, hs2, -⟩ :=
    (C3_updateTransaction_spec wState wKey wDoc (idOf 0) wFields rfl).1 (by decide)
  exact ⟨s2, hs2⟩

/-- C4: invalid fields (amount not positive, empty description, or malformed
date) make `addTransaction` fail with `ValidationError` — before any remote
call, so the state (in-memory document and remote store alike) is unchanged;
valid fields on a loaded, well-formed state yield a created transaction
carrying the given fields under an id unique within the document, appended
at the end of the list named by the category, the other list untouched. -/
theorem C4_addTransaction_spec :
    ∀ (f : TxFields) (c : Category) (s : MState),
      (validFields f = false →
        addTransaction f c s = Except.error LErr.validationError ∧
        runAdd s f c = s) ∧
      (∀ (k : MonthKey) (d : LedgerDoc), s.current = some (k, d) →
        validFields f = true → WF s →
        ∃ s2 t, addTransaction f c s = Except.ok (s2, t) ∧
          t.id ∉ usedIds d ∧
          t.date = f.date ∧ t.description = f.description ∧ t.amount = f.amount ∧
          ∃ d2, s2.current = some (k, d2) ∧
            d2.listOf c = d.listOf c ++ [t] ∧
            ∀ c2, c2 ≠ c → d2.listOf c2 = d.listOf c2) := by
  intro f c s
  constructor
  · intro hv
    constructor
    · simp [addTransaction, hv]
    · simp [runAdd, addTransaction, hv]
  · intro k d hcur hv hwf
    have hdoc : getDoc s = d := by simp [getDoc, hcur]
    have hfresh : idOf s.counter ∉ usedIds d := by
      intro hmem
      rcases List.mem_map.mp hmem with ⟨t, ht, hid⟩
      rcases hwf t (by rw [hdoc]; exact ht) with ⟨j, hj, hlt⟩
      have : j = s.counter := idOf_injective (hj.symm.trans hid)
      omega
    have hadd : addTransaction f c s = Except.ok
        ({ remote := saveDocument k
             (addToDoc d c ⟨idOf s.counter, f.date, f.description, f.amount⟩) s.remote,
           current := some (k,
             addToDoc d c ⟨idOf s.counter, f.date, f.description, f.amount⟩),
           counter := s.counter + 1 },
         ⟨idOf s.counter, f.date, f.description, f.amount⟩) := by
      simp [addTransaction, hv, hcur]
    refine ⟨_, _, hadd, hfresh, rfl, rfl, rfl,
      addToDoc d c ⟨idOf s.counter, f.date, f.description, f.amount⟩, rfl, ?_, ?_⟩
    · cases c <;> rfl
    · intro c2 hc2
      cases c <;> cases c2 <;> first | exact absurd rfl hc2 | rfl

/-- C4 witness: on a concrete loaded well-formed state, valid fields are
accepted and produce a transaction, and an empty description is rejected
with `ValidationError`. -/
theorem C4_addTransaction_spec_witness :
    validFields wFields = true ∧ wState.current = some (wKey, wDoc) ∧ WF wState ∧
    (∃ s2 t, addTransaction wFields Category.expense wState = Except.ok (s2, t)) ∧
    validFields ⟨"2024-02-01", "", 700⟩ = false ∧
    addTransaction ⟨"2024-02-01", "", 700⟩ Category.income wState =
      Except.error LErr.validationError := by
  have hwf : WF wState := by
    intro t ht
    have ht2 : t = wTx := by
      simpa [getDoc, wState, wDoc, allTx] using ht
    exact ⟨0, by rw [ht2]; rfl, by decide⟩
  refine ⟨by decide, rfl, hwf, ?_, by decide, ?_⟩
  · obtain ⟨s2, t, h, -⟩ :=
      (C4_addTransaction_spec wFields Category.expense wState).2 wKey wDoc rfl
        (by decide) hwf
    exact ⟨s2, t, h⟩
  · exact ((C4_addTransaction_spec ⟨"2024-02-01", "", 700⟩ Category.income wState).1
      (by decide)).1

/-- C5: deleting an id absent from both lists of the loaded document fails
with `NotFoundError` and leaves the state unchanged, so a subsequent
`getAllTransactionsForMonth` returns the same sequence as before. -/
theorem C5_delete_notFound :
    ∀ (s : MState) (k : MonthKey) (d : LedgerDoc) (i : String),
      s.current = some (k, d) → i ∉ usedIds d →
      deleteTransaction i s = Except.error LErr.notFoundError ∧
      runDelete s i = s ∧
      getAllTransactionsForMonth (getDoc (runDelete s i)) =
        getAllTransactionsForMonth (getDoc s) := by
  intro s k d i hcur hmem
  have h1 : deleteTransaction i s = Except.error LErr.notFoundError := by
    simp [deleteTransaction, hcur, hmem]
  have h2 : runDelete s i = s := by simp [runDelete, h1]
  exact ⟨h1, h2, by rw [h2]⟩

/-- C5 witness: deleting an absent id on a concrete loaded state. -/
theorem C5_delete_notFound_witness :
    wState.current = some (wKey, wDoc) ∧ "absent" ∉ usedIds wDoc ∧
    deleteTransaction "absent" wState = Except.error LErr.notFoundError ∧
    runDelete wState "absent" = wState := by
  have h := C5_delete_notFound wState wKey wDoc "absent" rfl (by decide)
  exact ⟨rfl, by decide, h.1, h.2.1⟩

/-- C6: loading a month whose remote document does not exist succeeds — the
underlying not-found outcome is not surfaced — and leaves the ledger in the
empty state, whose summary is all zeroes. -/
theorem C6_load_missing_month :
    ∀ (y m : String) (s : MState),
      s.remote.lookup (y, m) = none →
      loadMonthData y m s =
        Except.ok { s with current := some ((y, m), emptyDoc) } ∧
      calculateMonthlySummary
        (getDoc { s with current := some ((y, m), emptyDoc) }) = ⟨0, 0, 0⟩ := by
  intro y m s h
  constructor
  · simp [loadMonthData, fetchDocument, h]
  · norm_num [getDoc, calculateMonthlySummary, sumAmounts, emptyDoc]

/-- C6 witness: loading January 2024 over an empty remote store. -/
theorem C6_load_missing_month_witness :
    scState0.remote.lookup ("2024", "01") = none ∧
    loadMonthData "2024" "01" scState0 =
      Except.ok { scState0 with current := some (("2024", "01"), emptyDoc) } :=
  ⟨rfl, (C6_load_missing_month "2024" "01" scState0 rfl).1⟩

theorem filter_date_orderedInsert (dt : String) (a : Transaction × Category)
    (l : List (Transaction × Category)) :
    (List.orderedInsert dateLe a l).filter (fun x => x.1.date == dt) =
      if a.1.date == dt then a :: l.filter (fun x => x.1.date == dt)
      else l.filter (fun x => x.1.date == dt) := by
  induction l with
  | nil =>
    by_cases had : (a.1.date == dt) = true <;>
      simp [List.orderedInsert, List.filter, had]
  | cons b l ih =>
    simp only [List.orderedInsert]
    split
    · by_cases had : (a.1.date == dt) = true <;> simp [List.filter_cons, had]
    · rename_i hab
      by_cases had : (a.1.date == dt) = true
      · have hlt : b.1.date < a.1.date := not_le.mp hab
        have hbd : (b.1.date == dt) = false := by
          have hne : b.1.date ≠ dt := by
            intro h
            rw [h, eq_of_beq had] at hlt
            exact absurd hlt (lt_irrefl dt)
          simpa using hne
        simp [List.filter_cons, hbd, ih, had]
      · simp [List.filter_cons, ih, had]

theorem filter_date_insertionSort (dt : String) (l : List (Transaction × Category)) :
    (List.insertionSort dateLe l).filter (fun x => x.1.date == dt) =
      l.filter (fun x => x.1.date == dt) := by
  induction l with
  | nil => rfl
  | cons a l ih =>
    simp only [List.insertionSort]
    rw [filter_date_orderedInsert]
    by_cases had : (a.1.date == dt) = true <;> simp [List.filter_cons, had, ih]

/-- C7: `getAllTransactionsForMonth` returns one sequence that is a
permutation of the two lists' transactions tagged with their categories
(income entries first in the pre-sort insertion order), is sorted by date
ascending, and — stability, i.e. insertion order as the tie-break — keeps,
for every fixed date, exactly the insertion-ordered entries of that date. -/
theorem C7_getAll_spec :
    ∀ d : LedgerDoc,
      (getAllTransactionsForMonth d).Perm (tagged d) ∧
      List.Sorted dateLe (getAllTransactionsForMonth d) ∧
      ∀ dt : String,
        (getAllTransactionsForMonth d).filter (fun x => x.1.date == dt) =
          (tagged d).filter (fun x => x.1.date == dt) :=
  fun d => ⟨List.perm_insertionSort dateLe (tagged d),
            List.sorted_insertionSort dateLe (tagged d),
            fun dt => filter_date_insertionSort dt (tagged d)⟩

theorem jsTrim_eq_empty {s : String} (h : s.data.all Char.isWhitespace = true) :
    jsTrim s = "" := by
  have h2 : s.data.dropWhile Char.isWhitespace = [] :=
    List.dropWhile_eq_nil_iff.mpr fun x hx => List.all_eq_true.mp h x hx
  simp [jsTrim, h2]

/-- C10: a form submission whose description is only whitespace (trimmed to
empty before the check), or whose amount parses to `NaN`, to `0`, or to a
negative number, is rejected by `handleFormSubmit`'s guard: no data-manager
mutator is invoked and the ledger state is returned unchanged. -/
theorem C10_form_guard :
    ∀ (eid : Option String) (date : String) (ty : Category) (rawDesc : String)
      (amount : Option Rat) (s : MState),
      (rawDesc.data.all Char.isWhitespace = true ∨ amount = none ∨
        amount = some 0 ∨ ∃ a : Rat, amount = some a ∧ a < 0) →
      handleFormSubmit eid date ty rawDesc amount s = (s, false) := by
  intro eid date ty rawDesc amount s h
  unfold handleFormSubmit
  rcases h with hw | hn | h0 | ⟨a, ha, hneg⟩
  · rw [jsTrim_eq_empty hw]
    have he : "".isEmpty = true := rfl
    simp [he]
  · subst hn
    simp [jsFalsyNum]
  · subst h0
    simp [jsFalsyNum]
  · subst ha
    have hz : jsLeZero (some a) = true := by
      simp [jsLeZero]
      exact le_of_lt hneg
    simp [hz]

/-- C10 witness: a whitespace-only description, and separately a negative
amount, are rejected with the state unchanged. -/
theorem C10_form_guard_witness :
    ("   ".data.all Char.isWhitespace = true) ∧
    handleFormSubmit none "2024-01-05" Category.income "   " (some 5) scState0 =
      (scState0, false) ∧
    handleFormSubmit none "2024-01-05" Category.income "Salary" (some (-3)) scState0 =
      (scState0, false) :=
  ⟨by decide,
   C10_form_guard none "2024-01-05" Category.income "   " (some 5) scState0
     (Or.inl (by decide)),
   C10_form_guard none "2024-01-05" Category.income "Salary" (some (-3)) scState0
     (Or.inr (Or.inr (Or.inr ⟨-3, rfl, by decide⟩)))⟩

theorem mem_of_lookup {r : Remote} {k : MonthKey} {j : Json}
    (h : r.lookup k = some j) : (k, j) ∈ r := by
  induction r with
  | nil => simp [List.lookup] at h
  | cons p r ih =>
    rw [List.lookup] at h
    split at h
    · rename_i heq
      cases h
      have hk : k = p.1 := eq_of_beq heq
      have hp : p = (k, p.2) := by cases p; simp [hk]
      exact hp ▸ List.mem_cons_self p r
    · exact List.mem_cons_of_mem p (ih h)

theorem docInv_split {d : LedgerDoc} :
    docInv d ↔ (∀ t ∈ d.income, 0 < t.amount) ∧ (∀ t ∈ d.expenses, 0 < t.amount) := by
  constructor
  · intro h
    exact ⟨fun t ht => h t (List.mem_append_left _ ht),
           fun t ht => h t (List.mem_append_right _ ht)⟩
  · rintro ⟨h1, h2⟩ t ht
    rcases List.mem_append.mp ht with h | h
    · exact h1 t h
    · exact h2 t h

theorem amount_pos_of_validFields {f : TxFields} (h : validFields f = true) :
    0 < f.amount := by
  have := (Bool.and_eq_true ..).mp ((Bool.and_eq_true ..).mp h).1
  exact of_decide_eq_true this.1

theorem fresh_counter {s : MState} {k : MonthKey} {d : LedgerDoc}
    (hwf : WF s) (hcur : s.current = some (k, d)) : idOf s.counter ∉ usedIds d := by
  intro hmem
  rcases List.mem_map.mp hmem with ⟨t, ht, hid⟩
  have hd : getDoc s = d := by simp [getDoc, hcur]
  rcases hwf t (hd ▸ ht) with ⟨j, hj, hlt⟩
  have : j = s.counter := idOf_injective (hj.symm.trans hid)
  omega

theorem addTransaction_ok {f : TxFields} {c : Category} {s s2 : MState}
    {t : Transaction} (h : addTransaction f c s = Except.ok (s2, t)) :
    ∃ k d, s.current = some (k, d) ∧ validFields f = true ∧
      t = ⟨idOf s.counter, f.date, f.description, f.amount⟩ ∧
      s2.current = some (k, addToDoc d c t) ∧ s2.counter = s.counter + 1 := by
  unfold addTransaction at h
  split at h
  · rename_i hv
    split at h
    · cases h
    · rename_i k d hcur
      cases h
      exact ⟨k, d, hcur, hv, rfl, rfl, rfl⟩
  · cases h

theorem updateTransaction_ok {i : String} {f : TxFields} {s s2 : MState}
    (h : updateTransaction i f s = Except.ok s2) :
    ∃ k d, s.current = some (k, d) ∧ i ∈ usedIds d ∧
      s2.current = some (k, ⟨d.income.map (patchTx i f),
                             d.expenses.map (patchTx i f)⟩) ∧
      s2.counter = s.counter := by
  unfold updateTransaction at h
  split at h
  · cases h
  · rename_i k d hcur
    split at h
    · rename_i hmem
      cases h
      exact ⟨k, d, hcur, hmem, rfl, rfl⟩
    · cases h

theorem deleteTransaction_ok {i : String} {s s2 : MState}
    (h : deleteTransaction i s = Except.ok s2) :
    ∃ k d, s.current = some (k, d) ∧ i ∈ usedIds d ∧
      s2.current = some (k, ⟨d.income.filter (fun t => t.id ≠ i),
                             d.expenses.filter (fun t => t.id ≠ i)⟩) ∧
      s2.counter = s.counter := by
  unfold deleteTransaction at h
  split at h
  · cases h
  · rename_i k d hcur
    split at h
    · rename_i hmem
      cases h
      exact ⟨k, d, hcur, hmem, rfl, rfl⟩
    · cases h

theorem loadMonthData_ok {y m : String} {s s2 : MState}
    (h : loadMonthData y m s = Except.ok s2) :
    ∃ d, s2.current = some ((y, m), d) ∧
      (d = emptyDoc ∨ ∃ j, s.remote.lookup (y, m) = some j ∧ parseDoc j = some d) := by
  unfold loadMonthData fetchDocument at h
  split at h
  · rename_i d hmatch
    cases h
    split at hmatch
    · cases hmatch
      exact ⟨emptyDoc, rfl, Or.inl rfl⟩
    · rename_i j hl
      split at hmatch
      · rename_i d2 hp
        cases hmatch
        exact ⟨_, rfl, Or.inr ⟨j, hl, hp⟩⟩
      · cases hmatch
  · cases h

theorem patchTx_id (i : String) (f : TxFields) (t : Transaction) :
    (patchTx i f t).id = t.id := by
  unfold patchTx; split <;> rfl

theorem find?_id_none {l : List Transaction} {i : String}
    (h : ∀ t ∈ l, t.id ≠ i) : l.find? (fun u => u.id == i) = none :=
  List.find?_eq_none.mpr fun u hu => by simpa using h u hu

theorem findTransaction_addToDoc_fresh {d : LedgerDoc} {c : Category}
    {t : Transaction} (hfresh : t.id ∉ usedIds d) :
    findTransaction (addToDoc d c t) t.id = some ⟨t, c⟩ := by
  have hall := not_mem_usedIds_iff.mp hfresh
  have hin : d.income.find? (fun u => u.id == t.id) = none :=
    find?_id_none fun u hu => hall u (List.mem_append_left _ hu)
  have hex : d.expenses.find? (fun u => u.id == t.id) = none :=
    find?_id_none fun u hu => hall u (List.mem_append_right _ hu)
  have hsingle : List.find? (fun u => u.id == t.id) [t] = some t := by
    simp [List.find?_cons]
  cases c
  · simp only [findTransaction, addToDoc, List.find?_append, hin, hsingle,
      Option.none_or]
  · simp only [findTransaction, addToDoc, List.find?_append, hin, hex, hsingle,
      Option.none_or]

theorem findTransaction_addToDoc_other {d : LedgerDoc} {c : Category}
    {t : Transaction} {i : String} {fnd : Found} (hne : t.id ≠ i)
    (h : findTransaction d i = some fnd) :
    findTransaction (addToDoc d c t) i = some fnd := by
  have hsingle : List.find? (fun u => u.id == i) [t] = none := by
    have hb : (t.id == i) = false := beq_eq_false_iff_ne.mpr hne
    simp [List.find?_cons, hb]
  cases c
  · simp only [findTransaction, addToDoc, List.find?_append, hsingle,
      Option.or_none] at h ⊢
    exact h
  · simp only [findTransaction, addToDoc, List.find?_append, hsingle,
      Option.or_none] at h ⊢
    exact h

theorem find?_id_map_patch (j : String) (f : TxFields) (i : String)
    (l : List Transaction) :
    (l.map (patchTx j f)).find? (fun u => u.id == i) =
      (l.find? (fun u => u.id == i)).map (patchTx j f) := by
  rw [List.find?_map]
  have hc : ((fun u : Transaction => u.id == i) ∘ patchTx j f) =
      fun u : Transaction => u.id == i := by
    funext u
    simp [Function.comp, patchTx_id]
  rw [hc]

theorem findTransaction_map_patch {d : LedgerDoc} {j : String} {f : TxFields}
    {i : String} {fnd : Found} (hne : j ≠ i)
    (h : findTransaction d i = some fnd) :
    findTransaction ⟨d.income.map (patchTx j f), d.expenses.map (patchTx j f)⟩ i =
      some fnd := by
  have hfix : ∀ u : Transaction, u.id = i → patchTx j f u = u := by
    intro u hu
    unfold patchTx
    rw [if_neg]
    rw [hu]
    exact fun e => hne e.symm
  unfold findTransaction at h ⊢
  rw [find?_id_map_patch, find?_id_map_patch]
  rcases hin : d.income.find? (fun u => u.id == i) with _ | u
  · rw [hin] at h ⊢
    rcases hex : d.expenses.find? (fun u => u.id == i) with _ | u
    · rw [hex] at h; cases h
    · rw [hex] at h ⊢
      have hu : u.id = i := by simpa using List.find?_some hex
      simp only [Option.map_none', Option.map_some', hfix u hu]
      exact h
  · rw [hin] at h ⊢
    have hu : u.id = i := by simpa using List.find?_some hin
    simp only [Option.map_some', hfix u hu]
    exact h

theorem find?_id_filter_ne {l : List Transaction} {i j : String} (hne : j ≠ i) :
    (l.filter (fun t => t.id ≠ j)).find? (fun t => t.id == i) =
      l.find? (fun t => t.id == i) := by
  induction l with
  | nil => rfl
  | cons a l ih =>
    by_cases haj : a.id = j
    · have h1 : (decide (a.id ≠ j)) = false := by simp [haj]
      have h2 : (a.id == i) = false := by
        rw [haj]
        exact beq_eq_false_iff_ne.mpr hne
      rw [List.filter_cons, if_neg (by simp [h1]), ih, List.find?_cons, h2]
    · have h1 : (decide (a.id ≠ j)) = true := by simp [haj]
      rw [List.filter_cons, if_pos (by simp [h1]), List.find?_cons, List.find?_cons]
      cases hai : (a.id == i) with
      | true => rfl
      | false => exact ih

theorem findTransaction_filter_ne {d : LedgerDoc} {j : String} {i : String}
    {fnd : Found} (hne : j ≠ i) (h : findTransaction d i = some fnd) :
    findTransaction ⟨d.income.filter (fun t => t.id ≠ j),
                     d.expenses.filter (fun t => t.id ≠ j)⟩ i = some fnd := by
  unfold findTransaction at h ⊢
  rw [find?_id_filter_ne hne, find?_id_filter_ne hne]
  exact h

theorem findTransaction_stable_add {s : MState} {f : TxFields} {c : Category}
    {i : String} {fnd : Found} (hwf : WF s)
    (hf : findTransactionS s i = some fnd) :
    findTransactionS (runAdd s f c) i = some fnd := by
  unfold runAdd
  rcases hadd : addTransaction f c s with e | ⟨s2, t⟩
  · exact hf
  · obtain ⟨k, d, hcur, hv, ht, hcur2, hctr⟩ := addTransaction_ok hadd
    have hd : getDoc s = d := by simp [getDoc, hcur]
    have hd2 : getDoc s2 = addToDoc d c t := by simp [getDoc, hcur2]
    unfold findTransactionS at hf ⊢
    rw [hd2]
    rw [hd] at hf
    have hidt : t.id = idOf s.counter := by rw [ht]
    have hfresh : t.id ∉ usedIds d := hidt ▸ fresh_counter hwf hcur
    have hne : t.id ≠ i := fun e => hfresh (e ▸ mem_usedIds_of_find hf)
    exact findTransaction_addToDoc_other hne hf

theorem findTransaction_stable_update {s : MState} {j : String} {f : TxFields}
    {i : String} {fnd : Found} (hne : j ≠ i)
    (hf : findTransactionS s i = some fnd) :
    findTransactionS (runUpdate s j f) i = some fnd := by
  unfold runUpdate
  rcases hup : updateTransaction j f s with e | s2
  · exact hf
  · obtain ⟨k, d, hcur, hmem, hcur2, -⟩ := updateTransaction_ok hup
    have hd : getDoc s = d := by simp [getDoc, hcur]
    have hd2 : getDoc s2 =
        ⟨d.income.map (patchTx j f), d.expenses.map (patchTx j f)⟩ := by
      simp [getDoc, hcur2]
    unfold findTransactionS at hf ⊢
    rw [hd2]
    rw [hd] at hf
    exact findTransaction_map_patch hne hf

theorem findTransaction_stable_delete {s : MState} {j : String}
    {i : String} {fnd : Found} (hne : j ≠ i)
    (hf : findTransactionS s i = some fnd) :
    findTransactionS (runDelete s j) i = some fnd := by
  unfold runDelete
  rcases hdel : deleteTransaction j s with e | s2
  · exact hf
  · obtain ⟨k, d, hcur, hmem, hcur2, -⟩ := deleteTransaction_ok hdel
    have hd : getDoc s = d := by simp [getDoc, hcur]
    have hd2 : getDoc s2 = ⟨d.income.filter (fun t => t.id ≠ j),
                            d.expenses.filter (fun t => t.id ≠ j)⟩ := by
      simp [getDoc, hcur2]
    unfold findTransactionS at hf ⊢
    rw [hd2]
    rw [hd] at hf
    exact findTransaction_filter_ne hne hf

theorem WF_runAdd {s : MState} {f : TxFields} {c : Category} (hwf : WF s) :
    WF (runAdd s f c) := by
  unfold runAdd
  rcases hadd : addTransaction f c s with e | ⟨s2, t⟩
  · exact hwf
  · obtain ⟨k, d, hcur, hv, ht, hcur2, hctr⟩ := addTransaction_ok hadd
    show WF s2
    intro u hu
    have hd : getDoc s = d := by simp [getDoc, hcur]
    have hd2 : getDoc s2 = addToDoc d c t := by simp [getDoc, hcur2]
    rw [hd2] at hu
    have hsplit : u ∈ allTx d ∨ u = t := by
      cases c <;> simp [allTx, addToDoc] at hu ⊢ <;> tauto
    rcases hsplit with h | h
    · obtain ⟨j2, hj, hlt⟩ := hwf u (by rw [hd]; exact h)
      exact ⟨j2, hj, by omega⟩
    · refine ⟨s.counter, ?_, by omega⟩
      rw [h, ht]

theorem WF_runUpdate {s : MState} {j : String} {f : TxFields} (hwf : WF s) :
    WF (runUpdate s j f) := by
  unfold runUpdate
  rcases hup : updateTransaction j f s with e | s2
  · exact hwf
  · obtain ⟨k, d, hcur, hmem, hcur2, hctr⟩ := updateTransaction_ok hup
    show WF s2
    intro u hu
    have hd : getDoc s = d := by simp [getDoc, hcur]
    have hd2 : getDoc s2 =
        ⟨d.income.map (patchTx j f), d.expenses.map (patchTx j f)⟩ := by
      simp [getDoc, hcur2]
    rw [hd2] at hu
    have hex2 : ∃ v ∈ allTx d, u = patchTx j f v := by
      simp [allTx] at hu
      rcases hu with ⟨v, hv, hveq⟩ | ⟨v, hv, hveq⟩
      · exact ⟨v, List.mem_append_left _ hv, hveq.symm⟩
      · exact ⟨v, List.mem_append_right _ hv, hveq.symm⟩
    obtain ⟨v, hv, hveq⟩ := hex2
    obtain ⟨j2, hj, hlt⟩ := hwf v (by rw [hd]; exact hv)
    refine ⟨j2, ?_, by omega⟩
    rw [hveq, patchTx_id, hj]

theorem WF_runDelete {s : MState} {j : String} (hwf : WF s) :
    WF (runDelete s j) := by
  unfold runDelete
  rcases hdel : deleteTransaction j s with e | s2
  · exact hwf
  · obtain ⟨k, d, hcur, hmem, hcur2, hctr⟩ := deleteTransaction_ok hdel
    show WF s2
    intro u hu
    have hd : getDoc s = d := by simp [getDoc, hcur]
    have hd2 : getDoc s2 = ⟨d.income.filter (fun t => t.id ≠ j),
                            d.expenses.filter (fun t => t.id ≠ j)⟩ := by
      simp [getDoc, hcur2]
    rw [hd2] at hu
    have hin : u ∈ allTx d := by
      rcases List.mem_append.mp hu with h | h
      · exact List.mem_append_left _ (List.mem_of_mem_filter h)
      · exact List.mem_append_right _ (List.mem_of_mem_filter h)
    obtain ⟨j2, hj, hlt⟩ := hwf u (by rw [hd]; exact hin)
    exact ⟨j2, hj, by omega⟩

theorem WF_applyOp {s : MState} (hwf : WF s) (o : Op) : WF (applyOp s o) := by
  cases o with
  | addOp f c => exact WF_runAdd hwf
  | updateOp j f => exact WF_runUpdate hwf
  | deleteOp j => exact WF_runDelete hwf

theorem findTransaction_stable_trace {i : String} {fnd : Found}
    {ops : List Op} :
    ∀ {s : MState}, WF s → findTransactionS s i = some fnd →
      (∀ o ∈ ops, ¬ opTargets o i) →
      findTransactionS (applyOps s ops) i = some fnd := by
  induction ops with
  | nil => intro s _ hf _; exact hf
  | cons o os ih =>
    intro s hwf hf hn
    have h1 : findTransactionS (applyOp s o) i = some fnd := by
      cases o with
      | addOp f c => exact findTransaction_stable_add hwf hf
      | updateOp j f =>
        exact findTransaction_stable_update (hn _ (List.mem_cons_self _ _)) hf
      | deleteOp j =>
        exact findTransaction_stable_delete (hn _ (List.mem_cons_self _ _)) hf
    exact ih (WF_applyOp hwf o) h1 fun o2 h2 => hn o2 (List.mem_cons_of_mem _ h2)

theorem WF_wState : WF wState := by
  intro t ht
  have ht2 : t = wTx := by
    simpa [getDoc, wState, wDoc, allTx] using ht
  exact ⟨0, by rw [ht2]; rfl, by decide⟩

/-- C9: the document invariant "every transaction has `amount > 0` in both
lists" (category is carried by list membership alone; positivity of every
amount in either list is exactly the absence of sign-coded categories) is
preserved by `loadMonthData` (given a remote store whose parseable documents
satisfy it), by `addTransaction` (whose validation enforces it), by
`updateTransaction` with a positive amount (as supplied by the validating
caller), and by `deleteTransaction`; moreover a transaction added with
valid fields is returned by `findTransaction` under its fresh id with
unchanged fields, and stays so across any sequence of further operations
that never explicitly updates or deletes that id. -/
theorem C9_invariants :
    (∀ (y m : String) (s s2 : MState),
      (∀ p ∈ s.remote, ∀ d, parseDoc p.2 = some d → docInv d) →
      loadMonthData y m s = Except.ok s2 → docInv (getDoc s2)) ∧
    (∀ (f : TxFields) (c : Category) (s s2 : MState) (t : Transaction),
      docInv (getDoc s) → addTransaction f c s = Except.ok (s2, t) →
      docInv (getDoc s2)) ∧
    (∀ (i : String) (f : TxFields) (s s2 : MState),
      docInv (getDoc s) → 0 < f.amount → updateTransaction i f s = Except.ok s2 →
      docInv (getDoc s2)) ∧
    (∀ (i : String) (s s2 : MState),
      docInv (getDoc s) → deleteTransaction i s = Except.ok s2 →
      docInv (getDoc s2)) ∧
    (∀ (f : TxFields) (c : Category) (s s2 : MState) (t : Transaction),
      WF s → addTransaction f c s = Except.ok (s2, t) →
      findTransactionS s2 t.id = some ⟨t, c⟩) ∧
    (∀ (s : MState) (i : String) (fnd : Found) (ops : List Op),
      WF s → findTransactionS s i = some fnd → (∀ o ∈ ops, ¬ opTargets o i) →
      findTransactionS (applyOps s ops) i = some fnd) := by
  refine ⟨?_, ?_, ?_, ?_, ?_, ?_⟩
  · -- loadMonthData preserves the document invariant
    intro y m s s2 hrem hok
    obtain ⟨d, hcur2, hsrc⟩ := loadMonthData_ok hok
    have hd2 : getDoc s2 = d := by simp [getDoc, hcur2]
    rw [hd2]
    rcases hsrc with rfl | ⟨j, hl, hp⟩
    · intro u hu
      simp [allTx, emptyDoc] at hu
    · exact hrem (((y, m), j)) (mem_of_lookup hl) d hp
  · -- addTransaction preserves the document invariant
    intro f c s s2 t hinv hok
    obtain ⟨k, d, hcur, hv, ht, hcur2, -⟩ := addTransaction_ok hok
    have hd : getDoc s = d := by simp [getDoc, hcur]
    have hd2 : getDoc s2 = addToDoc d c t := by simp [getDoc, hcur2]
    rw [hd2]
    rw [hd] at hinv
    intro u hu
    have hsplit : u ∈ allTx d ∨ u = t := by
      cases c <;> simp [allTx, addToDoc] at hu ⊢ <;> tauto
    rcases hsplit with h | h
    · exact hinv u h
    · rw [h, ht]
      exact amount_pos_of_validFields hv
  · -- updateTransaction (with a positive amount) preserves the invariant
    intro i f s s2 hinv hpos hok
    obtain ⟨k, d, hcur, hmem, hcur2, -⟩ := updateTransaction_ok hok
    have hd : getDoc s = d := by simp [getDoc, hcur]
    have hd2 : getDoc s2 =
        ⟨d.income.map (patchTx i f), d.expenses.map (patchTx i f)⟩ := by
      simp [getDoc, hcur2]
    rw [hd2]
    rw [hd] at hinv
    intro u hu
    have hex2 : ∃ v ∈ allTx d, u = patchTx i f v := by
      simp [allTx] at hu
      rcases hu with ⟨v, hv, hveq⟩ | ⟨v, hv, hveq⟩
      · exact ⟨v, List.mem_append_left _ hv, hveq.symm⟩
      · exact ⟨v, List.mem_append_right _ hv, hveq.symm⟩
    obtain ⟨v, hv, hveq⟩ := hex2
    rw [hveq]
    unfold patchTx
    split
    · exact hpos
    · exact hinv v hv
  · -- deleteTransaction preserves the invariant
    intro i s s2 hinv hok
    obtain ⟨k, d, hcur, hmem, hcur2, -⟩ := deleteTransaction_ok hok
    have hd : getDoc s = d := by simp [getDoc, hcur]
    have hd2 : getDoc s2 = ⟨d.income.filter (fun t => t.id ≠ i),
                            d.expenses.filter (fun t => t.id ≠ i)⟩ := by
      simp [getDoc, hcur2]
    rw [hd2]
    rw [hd] at hinv
    intro u hu
    have hin : u ∈ allTx d := by
      rcases List.mem_append.mp hu with h | h
      · exact List.mem_append_left _ (List.mem_of_mem_filter h)
      · exact List.mem_append_right _ (List.mem_of_mem_filter h)
    exact hinv u hin
  · -- a freshly added transaction is found under its id, unchanged
    intro f c s s2 t hwf hok
    obtain ⟨k, d, hcur, hv, ht, hcur2, -⟩ := addTransaction_ok hok
    have hd2 : getDoc s2 = addToDoc d c t := by simp [getDoc, hcur2]
    unfold findTransactionS
    rw [hd2]
    have hidt : t.id = idOf s.counter := by rw [ht]
    exact findTransaction_addToDoc_fresh (hidt ▸ fresh_counter hwf hcur)
  · -- and stays found, unchanged, across non-targeting operations
    intro s i fnd ops hwf hf hn
    exact findTransaction_stable_trace hwf hf hn

/-- C9 witness: the invariant components evaluated at concrete inputs — a
load over an empty remote store, and a found transaction surviving a delete
of a different id. -/
theorem C9_invariants_witness :
    (∀ p ∈ scState0.remote, ∀ d, parseDoc p.2 = some d → docInv d) ∧
    loadMonthData "2024" "01" scState0 =
      Except.ok ⟨[], some (("2024", "01"), emptyDoc), 0⟩ ∧
    docInv (getDoc (⟨[], some (("2024", "01"), emptyDoc), 0⟩ : MState)) ∧
    WF wState ∧
    findTransactionS wState (idOf 0) = some ⟨wTx, Category.income⟩ ∧
    (∀ o ∈ [Op.deleteOp "zzz"], ¬ opTargets o (idOf 0)) ∧
    findTransactionS (applyOps wState [Op.deleteOp "zzz"]) (idOf 0) =
      some ⟨wTx, Category.income⟩ := by
  have hrem : ∀ p ∈ scState0.remote, ∀ d, parseDoc p.2 = some d → docInv d := by
    intro p hp
    simp [scState0] at hp
  have hno : ∀ o ∈ [Op.deleteOp "zzz"], ¬ opTargets o (idOf 0) := by
    intro o ho
    rw [List.mem_singleton] at ho
    subst ho
    exact (by decide : ¬ ("zzz" = idOf 0))
  refine ⟨hrem, rfl,
    C9_invariants.1 "2024" "01" scState0 _ hrem rfl,
    WF_wState, by decide, hno,
    C9_invariants.2.2.2.2.2 wState (idOf 0) ⟨wTx, Category.income⟩
      [Op.deleteOp "zzz"] WF_wState (by decide) hno⟩

end Ledgerly
